import Mathlib

/-!
Verification development for the DynectricTracker repository.

The repository ships a browser frontend (`src/frontend/app.js`), a SQL seed
script and a startup script.  The backend core described by the specification
(ingestion store, fetch scheduler, alert evaluator, aggregation engine) is not
part of the source tree, so those components are modelled here directly from
the specification's words; each such definition carries a doc comment starting
with `Modelled from the spec:`.  Frontend functions are shallowly embedded
from `src/frontend/app.js`.
-/

namespace DynectricTracker

/-- Modelled from the spec: canonical normalized price observation
(`PricePoint`), one price for a half-open time interval
`[start_time, end_time)` of a provider, tagged with the capture instant used
for supersession.  Times are integers (e.g. epoch hours), prices are
rationals in ct/kWh. -/
structure PricePoint where
  provider_id : ℕ
  start_time : ℤ
  end_time : ℤ
  price : ℚ
  captured_at : ℤ
deriving DecidableEq

/-- A point covers an instant `t` when `t` lies in its half-open interval. -/
def covers (q : PricePoint) (t : ℤ) : Prop :=
  q.start_time ≤ t ∧ t < q.end_time

instance (q : PricePoint) (t : ℤ) : Decidable (covers q t) :=
  inferInstanceAs (Decidable (_ ∧ _))

/-- An instant lies in the half-open window `[a, b)`. -/
def inWindow (a b t : ℤ) : Prop := a ≤ t ∧ t < b

instance (a b t : ℤ) : Decidable (inWindow a b t) :=
  inferInstanceAs (Decidable (_ ∧ _))

/-- Predicate: `q` is a stored point with the same provider and the identical interval
as the incoming point `p`. -/
def sameId (p q : PricePoint) : Prop :=
  q.provider_id = p.provider_id ∧ q.start_time = p.start_time ∧
    q.end_time = p.end_time

instance (p q : PricePoint) : Decidable (sameId p q) :=
  inferInstanceAs (Decidable (_ ∧ _ ∧ _))

/-- Modelled from the spec: trimming helper of the Ingestion Store's merge
rule.  Cuts the window `[a, b)` out of the stored point `r`, returning the
remaining pieces (up to two, when `r` is split), or `r` itself untouched when
the window does not overlap `r`. -/
def cutPoint (r : PricePoint) (a b : ℤ) : List PricePoint :=
  if max r.start_time a < min r.end_time b then
    (if r.start_time < a then [{ r with end_time := a }] else []) ++
      (if b < r.end_time then [{ r with start_time := b }] else [])
  else [r]

lemma mem_cut_cases {r r' : PricePoint} {a b : ℤ} (h : r' ∈ cutPoint r a b) :
    (¬ max r.start_time a < min r.end_time b ∧ r' = r) ∨
    (max r.start_time a < min r.end_time b ∧
      ((r.start_time < a ∧ r' = { r with end_time := a }) ∨
       (b < r.end_time ∧ r' = { r with start_time := b }))) := by
  unfold cutPoint at h
  split at h
  case isTrue hov =>
    refine Or.inr ⟨hov, ?_⟩
    rcases List.mem_append.1 h with h1 | h1
    · split at h1
      · exact Or.inl ⟨by assumption, List.mem_singleton.1 h1⟩
      · exact absurd h1 (List.not_mem_nil _)
    · split at h1
      · exact Or.inr ⟨by assumption, List.mem_singleton.1 h1⟩
      · exact absurd h1 (List.not_mem_nil _)
  case isFalse hov => exact Or.inl ⟨hov, List.mem_singleton.1 h⟩

lemma covers_mono_of_mem_cut {r r' : PricePoint} {a b : ℤ}
    (h : r' ∈ cutPoint r a b) : ∀ t, covers r' t → covers r t := by
  intro t ht
  rcases mem_cut_cases h with ⟨_, rfl⟩ | ⟨hov, ⟨hlt, rfl⟩ | ⟨hlt, rfl⟩⟩
  · exact ht
  · rcases ht with ⟨h1, h2⟩
    simp only [covers] at h1 h2 ⊢
    omega
  · rcases ht with ⟨h1, h2⟩
    simp only [covers] at h1 h2 ⊢
    omega

lemma fields_of_mem_cut {r r' : PricePoint} {a b : ℤ}
    (h : r' ∈ cutPoint r a b) :
    r'.provider_id = r.provider_id ∧ r'.price = r.price ∧
      r'.captured_at = r.captured_at := by
  rcases mem_cut_cases h with ⟨_, rfl⟩ | ⟨hov, ⟨hlt, rfl⟩ | ⟨hlt, rfl⟩⟩ <;>
    exact ⟨rfl, rfl, rfl⟩

lemma avoid_of_mem_cut {r r' : PricePoint} {a b : ℤ}
    (h : r' ∈ cutPoint r a b) : ∀ t, covers r' t → ¬ inWindow a b t := by
  intro t ht hw
  rcases ht with ⟨h1, h2⟩
  rcases hw with ⟨h3, h4⟩
  rcases mem_cut_cases h with ⟨hov, rfl⟩ | ⟨hov, ⟨hlt, rfl⟩ | ⟨hlt, rfl⟩⟩
  · exact hov (by omega)
  · simp only at h1 h2
    omega
  · simp only at h1 h2
    omega

lemma mem_cut_complete {r : PricePoint} {a b t : ℤ}
    (hc : covers r t) (hw : ¬ inWindow a b t) :
    ∃ r' ∈ cutPoint r a b, covers r' t := by
  rcases hc with ⟨h1, h2⟩
  have hw2 : t < a ∨ b ≤ t := by
    by_contra hcon
    push_neg at hcon
    exact hw ⟨hcon.1, hcon.2⟩
  unfold cutPoint
  split
  case isTrue hov =>
    rcases hw2 with hl | hr
    · refine ⟨{ r with end_time := a }, ?_, ⟨h1, hl⟩⟩
      have : r.start_time < a := by omega
      simp [this]
    · refine ⟨{ r with start_time := b }, ?_, ⟨hr, h2⟩⟩
      have : b < r.end_time := by omega
      simp [this]
  case isFalse hov =>
    exact ⟨r, List.mem_singleton.2 rfl, ⟨h1, h2⟩⟩

lemma nonempty_of_mem_cut {r r' : PricePoint} {a b : ℤ}
    (hr : r.start_time < r.end_time) (h : r' ∈ cutPoint r a b) :
    r'.start_time < r'.end_time := by
  rcases mem_cut_cases h with ⟨_, rfl⟩ | ⟨hov, ⟨hlt, rfl⟩ | ⟨hlt, rfl⟩⟩
  · exact hr
  · simpa using hlt
  · simpa using hlt

/-- The pieces produced by one cut never share an instant. -/
lemma cut_pairwise_disjoint (r : PricePoint) (a b : ℤ) :
    (cutPoint r a b).Pairwise
      (fun x y => ∀ t, ¬ (covers x t ∧ covers y t)) := by
  unfold cutPoint
  split
  case isTrue hov =>
    split <;> split <;>
      simp only [List.nil_append, List.append_nil, List.cons_append]
    · refine List.pairwise_cons.2 ⟨?_, List.pairwise_singleton _ _⟩
      intro y hy t hxy
      simp only [List.mem_singleton] at hy
      subst hy
      rcases hxy with ⟨⟨_, hx2⟩, ⟨hy1, _⟩⟩
      simp only at hx2 hy1
      omega
    · exact List.pairwise_singleton _ _
    · exact List.pairwise_singleton _ _
    · exact List.Pairwise.nil
  case isFalse =>
    exact List.pairwise_singleton _ _

/-- Modelled from the spec: stored points of the incoming point's provider
whose data is equal or newer (`captured_at` at least the incoming one's);
an incoming interval already covered by such points must merge, not
duplicate, so these block the incoming point. -/
def blockers (p : PricePoint) (store : List PricePoint) : List PricePoint :=
  store.filter fun q =>
    decide (q.provider_id = p.provider_id ∧ p.captured_at ≤ q.captured_at)

/-- Modelled from the spec: trimming of a stored interval overlapped by a
strictly newer incoming point of the same provider — trimming favors the
newer point's interval.  Older same-provider points lose the incoming
window; everything else is kept untouched. -/
def trimOlder (p q : PricePoint) : List PricePoint :=
  if q.provider_id = p.provider_id ∧ q.captured_at < p.captured_at then
    cutPoint q p.start_time p.end_time
  else [q]

/-- Modelled from the spec: repeatedly cut every window of `Q` out of the
pieces `R`. -/
def subtractAll (R : List PricePoint) (Q : List PricePoint) :
    List PricePoint :=
  Q.foldl (fun acc q => acc.flatMap fun r => cutPoint r q.start_time q.end_time) R

/-- Modelled from the spec: the Ingestion Store's merge rule for one incoming
point.  If a stored point of the same provider has the identical interval
with equal or newer `captured_at`, the store is unchanged; if it has the
identical interval but strictly older `captured_at`, it is superseded by the
incoming point; otherwise older overlapping stored intervals are
split/trimmed around the incoming window and the incoming point is inserted
minus the sub-windows already held by equal-or-newer stored points, so that
no two stored intervals of one provider overlap. -/
def upsertPoint (store : List PricePoint) (p : PricePoint) :
    List PricePoint :=
  if ∃ q ∈ store, sameId p q ∧ p.captured_at ≤ q.captured_at then store
  else if ∃ q ∈ store, sameId p q then
    store.map fun q => if sameId p q then p else q
  else
    store.flatMap (trimOlder p) ++ subtractAll [p] (blockers p store)

/-- Modelled from the spec: `upsert` applies a batch of `PricePoint`s to the
store, one point at a time. -/
def upsert (store : List PricePoint) (batch : List PricePoint) :
    List PricePoint :=
  batch.foldl upsertPoint store

/-- Two stored points are admissible together when, if they belong to the
same provider, their intervals share no instant. -/
def disjointPts (q r : PricePoint) : Prop :=
  q.provider_id = r.provider_id → ∀ t, ¬ (covers q t ∧ covers r t)

/-- Modelled from the spec: the Ingestion Store invariant — no two stored
intervals of one provider overlap. -/
def NoOverlap (S : List PricePoint) : Prop := S.Pairwise disjointPts

lemma disjointPts_symm {q r : PricePoint} (h : disjointPts q r) :
    disjointPts r q := by
  intro hpr t hc
  exact h hpr.symm t ⟨hc.2, hc.1⟩

lemma overlap_witness {q r : PricePoint}
    (h : max q.start_time r.start_time < min q.end_time r.end_time) :
    ∃ t, covers q t ∧ covers r t := by
  refine ⟨max q.start_time r.start_time, ⟨le_max_left _ _, ?_⟩,
    ⟨le_max_right _ _, ?_⟩⟩ <;> omega

lemma mem_blockers {p q : PricePoint} {store : List PricePoint} :
    q ∈ blockers p store ↔
      q ∈ store ∧ q.provider_id = p.provider_id ∧
        p.captured_at ≤ q.captured_at := by
  simp [blockers, List.mem_filter]

/-- Flat-mapping a function that returns singletons everywhere is the identity. -/
lemma flatMap_id_of_singleton {α : Type} {l : List α} {f : α → List α}
    (h : ∀ x ∈ l, f x = [x]) : l.flatMap f = l := by
  induction l with
  | nil => rfl
  | cons a l ih =>
    simp only [List.flatMap_cons, h a (List.mem_cons_self a l)]
    rw [ih fun x hx => h x (List.mem_cons_of_mem a hx)]
    rfl

/-- Pairwise property of a bind, from pairwise properties of the parts. -/
lemma pairwise_flatMap_of {α β : Type} {l : List α} {f : α → List β}
    {R : α → α → Prop} {S : β → β → Prop} (hl : l.Pairwise R)
    (hin : ∀ a ∈ l, (f a).Pairwise S)
    (hcross : ∀ a b, R a b → ∀ x ∈ f a, ∀ y ∈ f b, S x y) :
    (l.flatMap f).Pairwise S := by
  induction l with
  | nil => exact List.Pairwise.nil
  | cons a l ih =>
    rcases List.pairwise_cons.1 hl with ⟨ha, hl2⟩
    simp only [List.flatMap_cons]
    refine List.pairwise_append.2
      ⟨hin a (List.mem_cons_self a l),
        ih hl2 (fun x hx => hin x (List.mem_cons_of_mem a hx)), ?_⟩
    intro x hx y hy
    rcases List.mem_flatMap.1 hy with ⟨b, hb, hyb⟩
    exact hcross a b (ha b hb) x hx y hyb

lemma subtractAll_cons (R : List PricePoint) (q : PricePoint)
    (Q : List PricePoint) :
    subtractAll R (q :: Q) =
      subtractAll (R.flatMap fun r => cutPoint r q.start_time q.end_time) Q :=
  rfl

lemma mem_subtractAll_provenance {R Q : List PricePoint} {r' : PricePoint}
    (h : r' ∈ subtractAll R Q) :
    ∃ r ∈ R, r'.provider_id = r.provider_id ∧ r'.price = r.price ∧
      r'.captured_at = r.captured_at ∧ ∀ t, covers r' t → covers r t := by
  induction Q generalizing R with
  | nil => exact ⟨r', h, rfl, rfl, rfl, fun _ ht => ht⟩
  | cons q Q ih =>
    rw [subtractAll_cons] at h
    rcases ih h with ⟨x, hx, h1, h2, h3, h4⟩
    rcases List.mem_flatMap.1 hx with ⟨r, hr, hxr⟩
    rcases fields_of_mem_cut hxr with ⟨g1, g2, g3⟩
    exact ⟨r, hr, h1.trans g1, h2.trans g2, h3.trans g3,
      fun t ht => covers_mono_of_mem_cut hxr t (h4 t ht)⟩

lemma mem_subtractAll_avoid {R Q : List PricePoint} {r' : PricePoint}
    (h : r' ∈ subtractAll R Q) :
    ∀ q ∈ Q, ∀ t, covers r' t →
      ¬ inWindow q.start_time q.end_time t := by
  induction Q generalizing R with
  | nil => intro q hq; exact absurd hq (List.not_mem_nil _)
  | cons q0 Q ih =>
    rw [subtractAll_cons] at h
    intro q hq t ht hw
    rcases List.mem_cons.1 hq with rfl | hq2
    · rcases mem_subtractAll_provenance h with ⟨x, hx, _, _, _, h4⟩
      rcases List.mem_flatMap.1 hx with ⟨r, _, hxr⟩
      exact avoid_of_mem_cut hxr t (h4 t ht) hw
    · exact ih h q hq2 t ht hw

lemma subtractAll_complete {R Q : List PricePoint} {r : PricePoint} {t : ℤ}
    (hr : r ∈ R) (hc : covers r t)
    (hq : ∀ q ∈ Q, ¬ inWindow q.start_time q.end_time t) :
    ∃ r' ∈ subtractAll R Q, covers r' t := by
  induction Q generalizing R r with
  | nil => exact ⟨r, hr, hc⟩
  | cons q0 Q ih =>
    rw [subtractAll_cons]
    rcases mem_cut_complete hc (hq q0 (List.mem_cons_self q0 Q)) with
      ⟨r1, hr1, hc1⟩
    exact ih (List.mem_flatMap.2 ⟨r, hr, hr1⟩) hc1
      (fun q hq2 => hq q (List.mem_cons_of_mem q0 hq2))

lemma subtractAll_nonempty {R Q : List PricePoint} {r' : PricePoint}
    (hR : ∀ r ∈ R, r.start_time < r.end_time) (h : r' ∈ subtractAll R Q) :
    r'.start_time < r'.end_time := by
  induction Q generalizing R with
  | nil => exact hR r' h
  | cons q0 Q ih =>
    rw [subtractAll_cons] at h
    refine ih ?_ h
    intro x hx
    rcases List.mem_flatMap.1 hx with ⟨r, hr, hxr⟩
    exact nonempty_of_mem_cut (hR r hr) hxr

lemma subtractAll_pairwise {R Q : List PricePoint}
    (hR : R.Pairwise fun x y => ∀ t, ¬ (covers x t ∧ covers y t)) :
    (subtractAll R Q).Pairwise
      (fun x y => ∀ t, ¬ (covers x t ∧ covers y t)) := by
  induction Q generalizing R with
  | nil => exact hR
  | cons q0 Q ih =>
    rw [subtractAll_cons]
    refine ih ?_
    refine pairwise_flatMap_of hR (fun a _ => cut_pairwise_disjoint a _ _) ?_
    intro a b hab x hx y hy t ⟨hxt, hyt⟩
    exact hab t ⟨covers_mono_of_mem_cut hx t hxt,
      covers_mono_of_mem_cut hy t hyt⟩

lemma subtractAll_eq_nil {p : PricePoint} {Q : List PricePoint}
    (hp : p.start_time < p.end_time)
    (hcov : ∀ t, covers p t →
      ∃ q ∈ Q, inWindow q.start_time q.end_time t) :
    subtractAll [p] Q = [] := by
  rw [List.eq_nil_iff_forall_not_mem]
  intro x hx
  have hne : x.start_time < x.end_time :=
    subtractAll_nonempty (by simpa using hp) hx
  have hcx : covers x x.start_time := ⟨le_refl _, hne⟩
  rcases mem_subtractAll_provenance hx with ⟨r, hr, _, _, _, h4⟩
  rcases List.mem_singleton.1 hr with rfl
  rcases hcov _ (h4 _ hcx) with ⟨q, hq, hwq⟩
  exact mem_subtractAll_avoid hx q hq _ hcx hwq

lemma subtractAll_of_empty_pt {p : PricePoint} {Q : List PricePoint}
    (hp : ¬ p.start_time < p.end_time) : subtractAll [p] Q = [p] := by
  induction Q with
  | nil => rfl
  | cons q0 Q ih =>
    rw [subtractAll_cons]
    have hcut : cutPoint p q0.start_time q0.end_time = [p] := by
      unfold cutPoint
      rw [if_neg (by omega)]
    simp only [List.flatMap_cons, List.flatMap_nil, List.append_nil, hcut]
    exact ih

lemma covers_of_sameId {p a : PricePoint} (h : sameId p a) :
    ∀ t, covers a t ↔ covers p t := by
  rcases h with ⟨_, h2, h3⟩
  intro t
  rw [covers, covers, h2, h3]

lemma mem_trimOlder {p q x : PricePoint} (h : x ∈ trimOlder p q) :
    x.provider_id = q.provider_id ∧ x.price = q.price ∧
      x.captured_at = q.captured_at ∧ ∀ t, covers x t → covers q t := by
  unfold trimOlder at h
  split at h
  · exact ⟨(fields_of_mem_cut h).1, (fields_of_mem_cut h).2.1,
      (fields_of_mem_cut h).2.2, covers_mono_of_mem_cut h⟩
  · rcases List.mem_singleton.1 h with rfl
    exact ⟨rfl, rfl, rfl, fun _ ht => ht⟩

lemma mem_pieces {p x : PricePoint} {S : List PricePoint}
    (h : x ∈ subtractAll [p] (blockers p S)) :
    x.provider_id = p.provider_id ∧ x.price = p.price ∧
      x.captured_at = p.captured_at ∧ (∀ t, covers x t → covers p t) ∧
      ∀ q ∈ blockers p S, ∀ t, covers x t → ¬ covers q t := by
  rcases mem_subtractAll_provenance h with ⟨r, hr, h1, h2, h3, h4⟩
  rcases List.mem_singleton.1 hr with rfl
  exact ⟨h1, h2, h3, h4, fun q hq t ht => mem_subtractAll_avoid h q hq t ht⟩

/-- One upsert step preserves the Ingestion Store invariant. -/
lemma noOverlap_upsertPoint {S : List PricePoint} (p : PricePoint)
    (h : NoOverlap S) : NoOverlap (upsertPoint S p) := by
  unfold upsertPoint
  split
  · exact h
  split
  case isTrue =>
    rw [NoOverlap, List.pairwise_map]
    refine h.imp ?_
    intro a b hab
    split_ifs with ha hb hb
    · intro _ t ⟨h1, h2⟩
      exact hab (ha.1.trans hb.1.symm) t
        ⟨(covers_of_sameId ha t).2 h1, (covers_of_sameId hb t).2 h2⟩
    · intro hpr t ⟨h1, h2⟩
      exact hab (ha.1.trans hpr) t ⟨(covers_of_sameId ha t).2 h1, h2⟩
    · intro hpr t ⟨h1, h2⟩
      exact hab (hpr.trans hb.1.symm) t ⟨h1, (covers_of_sameId hb t).2 h2⟩
    · exact hab
  case isFalse =>
    refine List.pairwise_append.2 ⟨?_, ?_, ?_⟩
    · refine pairwise_flatMap_of h ?_ ?_
      · intro a _
        unfold trimOlder
        split
        · exact (cut_pairwise_disjoint a _ _).imp fun hd => fun _ => hd
        · exact List.pairwise_singleton _ _
      · intro a b hab x hx y hy
        rcases mem_trimOlder hx with ⟨hx1, _, _, hx4⟩
        rcases mem_trimOlder hy with ⟨hy1, _, _, hy4⟩
        intro hpr t ⟨h1, h2⟩
        exact hab ((hx1.symm.trans hpr).trans hy1) t ⟨hx4 t h1, hy4 t h2⟩
    · exact (subtractAll_pairwise (List.pairwise_singleton _ _)).imp
        fun hd => fun _ => hd
    · intro x hx y hy
      rcases List.mem_flatMap.1 hx with ⟨a, ha, hxa⟩
      rcases mem_pieces hy with ⟨hy1, _, _, hy4, hy5⟩
      unfold trimOlder at hxa
      split at hxa
      case isTrue hcond =>
        intro _ t ⟨h1, h2⟩
        exact avoid_of_mem_cut hxa t h1 (hy4 t h2)
      case isFalse hcond =>
        rcases List.mem_singleton.1 hxa with rfl
        by_cases hprov : x.provider_id = p.provider_id
        · have hcap : p.captured_at ≤ x.captured_at := by
            rcases lt_or_le x.captured_at p.captured_at with hlt | hle
            · exact absurd ⟨hprov, hlt⟩ hcond
            · exact hle
          have hxb : x ∈ blockers p S := mem_blockers.2 ⟨ha, hprov, hcap⟩
          intro _ t ⟨h1, h2⟩
          exact hy5 x hxb t h2 h1
        · intro hpr
          exact absurd (hpr.trans hy1) hprov

lemma noOverlap_upsert {S : List PricePoint} (B : List PricePoint)
    (h : NoOverlap S) : NoOverlap (upsert S B) := by
  induction B generalizing S with
  | nil => exact h
  | cons p B ih => exact ih (noOverlap_upsertPoint p h)

/-- A point `p` is settled in a store when upserting it again changes
nothing: either an identical-interval stored point with equal or newer
capture exists, or `p` is a real interval, no stored point has its identical
interval, its whole interval is covered by same-provider stored data that is
equal or newer, and no strictly older same-provider stored point intrudes on
its interval. -/
def Cond (p : PricePoint) (S : List PricePoint) : Prop :=
  (∃ r ∈ S, sameId p r ∧ p.captured_at ≤ r.captured_at) ∨
  (p.start_time < p.end_time ∧
    (∀ r ∈ S, ¬ sameId p r) ∧
    (∀ t, covers p t → ∃ r ∈ S, r.provider_id = p.provider_id ∧
      p.captured_at ≤ r.captured_at ∧ covers r t) ∧
    (∀ r ∈ S, r.provider_id = p.provider_id →
      r.captured_at < p.captured_at → ∀ t, ¬ (covers r t ∧ covers p t)))

lemma upsertPoint_eq_of_cond {p : PricePoint} {S : List PricePoint}
    (h : Cond p S) : upsertPoint S p = S := by
  rcases h with ⟨r, hr, hid, hcap⟩ | ⟨hne, hnoid, hcov, hold⟩
  · unfold upsertPoint
    rw [if_pos ⟨r, hr, hid, hcap⟩]
  · unfold upsertPoint
    rw [if_neg, if_neg]
    · have h1 : S.flatMap (trimOlder p) = S := by
        refine flatMap_id_of_singleton ?_
        intro x hx
        unfold trimOlder
        split
        case isTrue hc =>
          unfold cutPoint
          rw [if_neg]
          intro hovl
          rcases overlap_witness hovl with ⟨t, ht1, ht2⟩
          exact hold x hx hc.1 hc.2 t ⟨ht1, ht2⟩
        case isFalse => rfl
      have h2 : subtractAll [p] (blockers p S) = [] := by
        refine subtractAll_eq_nil hne ?_
        intro t ht
        rcases hcov t ht with ⟨r, hr, hprov, hcap, hcovr⟩
        exact ⟨r, mem_blockers.2 ⟨hr, hprov, hcap⟩, hcovr⟩
      rw [h1, h2, List.append_nil]
    · intro ⟨x, hx, hid⟩
      exact hnoid x hx hid
    · intro ⟨x, hx, hid, _⟩
      exact hnoid x hx hid

lemma cond_upsertPoint_self (S : List PricePoint) (p : PricePoint) :
    Cond p (upsertPoint S p) := by
  unfold upsertPoint
  split
  case isTrue h1 => exact Or.inl h1
  case isFalse h1 =>
    split
    case isTrue h2 =>
      rcases h2 with ⟨q0, hq0, hid0⟩
      refine Or.inl ⟨p, List.mem_map.2 ⟨q0, hq0, by rw [if_pos hid0]⟩,
        ⟨rfl, rfl, rfl⟩, le_refl _⟩
    case isFalse h2 =>
      have hnoid : ∀ r ∈ S, ¬ sameId p r := by
        intro r hr hid
        exact h2 ⟨r, hr, hid⟩
      by_cases hne : p.start_time < p.end_time
      swap
      · refine Or.inl ⟨p, ?_, ⟨rfl, rfl, rfl⟩, le_refl _⟩
        rw [subtractAll_of_empty_pt hne]
        exact List.mem_append.2 (Or.inr (List.mem_singleton.2 rfl))
      by_cases hex : ∃ x ∈ S.flatMap (trimOlder p) ++
          subtractAll [p] (blockers p S),
          sameId p x ∧ p.captured_at ≤ x.captured_at
      · exact Or.inl hex
      refine Or.inr ⟨hne, ?_, ?_, ?_⟩
      · -- no element identical to p remains
        intro x hx hid
        rcases List.mem_append.1 hx with hx1 | hx1
        · rcases List.mem_flatMap.1 hx1 with ⟨a, ha, hxa⟩
          unfold trimOlder at hxa
          split at hxa
          · have hcx : covers x p.start_time := by
              rcases hid with ⟨_, hs, he⟩
              exact ⟨le_of_eq hs, by rw [he]; exact hne⟩
            exact avoid_of_mem_cut hxa _ hcx ⟨le_refl _, hne⟩
          · rcases List.mem_singleton.1 hxa with rfl
            exact hnoid x ha hid
        · rcases mem_pieces hx1 with ⟨_, _, hcap, _, _⟩
          exact hex ⟨x, hx, hid, le_of_eq hcap.symm⟩
      · -- coverage of the whole incoming interval
        intro t ht
        by_cases hb : ∃ b0 ∈ blockers p S, covers b0 t
        · rcases hb with ⟨b0, hb0, hcb⟩
          rcases mem_blockers.1 hb0 with ⟨hb0S, hbprov, hbcap⟩
          refine ⟨b0, List.mem_append.2 (Or.inl ?_), hbprov, hbcap, hcb⟩
          refine List.mem_flatMap.2 ⟨b0, hb0S, ?_⟩
          unfold trimOlder
          rw [if_neg fun hc => absurd hbcap (not_le.2 hc.2)]
          exact List.mem_singleton.2 rfl
        · push_neg at hb
          rcases subtractAll_complete (List.mem_singleton.2 rfl) ht
              (fun q0 hq0 => hb q0 hq0) with ⟨r', hr', hcr'⟩
          rcases mem_pieces hr' with ⟨hprov, _, hcap, _, _⟩
          exact ⟨r', List.mem_append.2 (Or.inr hr'), hprov,
            le_of_eq hcap.symm, hcr'⟩
      · -- no strictly older same-provider intruder remains
        intro x hx hprov hcap t ⟨hxt, hpt⟩
        rcases List.mem_append.1 hx with hx1 | hx1
        · rcases List.mem_flatMap.1 hx1 with ⟨a, ha, hxa⟩
          unfold trimOlder at hxa
          split at hxa
          next hc => exact avoid_of_mem_cut hxa t hxt hpt
          next hc =>
            rcases List.mem_singleton.1 hxa with rfl
            exact hc ⟨hprov, hcap⟩
        · rcases mem_pieces hx1 with ⟨_, _, hcap2, _, _⟩
          exact absurd hcap (by rw [hcap2]; exact lt_irrefl _)

lemma covers_start_of_sameId {q a : PricePoint} (hida : sameId q a)
    (hne : q.start_time < q.end_time) : covers a q.start_time :=
  ⟨le_of_eq hida.2.1, by rw [hida.2.2]; exact hne⟩

/-- Once settled, a point stays settled through later upserts into a store
satisfying the no-overlap invariant. -/
lemma cond_preserved {S : List PricePoint} (hS : NoOverlap S)
    {q : PricePoint} (hq : Cond q S) (p : PricePoint) :
    Cond q (upsertPoint S p) := by
  have hforall := List.Pairwise.forall
    (fun _ _ h => disjointPts_symm h) hS
  unfold upsertPoint
  split
  case isTrue => exact hq
  case isFalse h1 =>
    have holder : ∀ x ∈ S, sameId p x → x.captured_at < p.captured_at := by
      intro x hx hid
      by_contra hcon
      exact h1 ⟨x, hx, hid, not_lt.1 hcon⟩
    split
    case isTrue h2 =>
      -- supersession branch: the identical stored points are replaced by p
      rcases hq with ⟨r, hr, hid, hcap⟩ | ⟨hne, hnoid, hcov, hold⟩
      · by_cases hpr : sameId p r
        · refine Or.inl ⟨p, List.mem_map.2 ⟨r, hr, by rw [if_pos hpr]⟩,
            ⟨hpr.1.symm.trans hid.1, hpr.2.1.symm.trans hid.2.1,
              hpr.2.2.symm.trans hid.2.2⟩,
            le_of_lt (lt_of_le_of_lt hcap (holder r hr hpr))⟩
        · exact Or.inl ⟨r, List.mem_map.2 ⟨r, hr, by rw [if_neg hpr]⟩,
            hid, hcap⟩
      · refine Or.inr ⟨hne, ?_, ?_, ?_⟩
        · intro x hx hid
          rcases List.mem_map.1 hx with ⟨a, ha, rfl⟩
          split at hid
          next hpa =>
            rcases h2 with ⟨x0, hx0, hidx0⟩
            exact hnoid x0 hx0
              ⟨hidx0.1.trans hid.1, hidx0.2.1.trans hid.2.1,
                hidx0.2.2.trans hid.2.2⟩
          next hpa => exact hnoid a ha hid
        · intro t ht
          rcases hcov t ht with ⟨r, hr, hprov, hcap, hcovr⟩
          by_cases hpr : sameId p r
          · refine ⟨p, List.mem_map.2 ⟨r, hr, by rw [if_pos hpr]⟩,
              hpr.1.symm.trans hprov,
              le_of_lt (lt_of_le_of_lt hcap (holder r hr hpr)),
              (covers_of_sameId hpr t).1 hcovr⟩
          · exact ⟨r, List.mem_map.2 ⟨r, hr, by rw [if_neg hpr]⟩,
              hprov, hcap, hcovr⟩
        · intro x hx hprov hcap t ⟨hxt, hqt⟩
          rcases List.mem_map.1 hx with ⟨a, ha, rfl⟩
          by_cases hpa : sameId p a
          · rw [if_pos hpa] at hxt hprov hcap
            exact hold a ha (hpa.1.trans hprov) (lt_trans (holder a ha hpa)
              hcap) t ⟨(covers_of_sameId hpa t).2 hxt, hqt⟩
          · rw [if_neg hpa] at hxt hprov hcap
            exact hold a ha hprov hcap t ⟨hxt, hqt⟩
    case isFalse h2 =>
      -- trim-and-insert branch
      have hnoidp : ∀ x ∈ S, ¬ sameId p x := fun x hx hid =>
        h2 ⟨x, hx, hid⟩
      rcases hq with ⟨r, hr, hid, hcap⟩ | ⟨hne, hnoid, hcov, hold⟩
      · by_cases hcond : r.provider_id = p.provider_id ∧
            r.captured_at < p.captured_at
        swap
        · refine Or.inl ⟨r, List.mem_append.2 (Or.inl
            (List.mem_flatMap.2 ⟨r, hr, ?_⟩)), hid, hcap⟩
          unfold trimOlder
          rw [if_neg hcond]
          exact List.mem_singleton.2 rfl
        by_cases hovl : max r.start_time p.start_time <
            min r.end_time p.end_time
        swap
        · refine Or.inl ⟨r, List.mem_append.2 (Or.inl
            (List.mem_flatMap.2 ⟨r, hr, ?_⟩)), hid, hcap⟩
          unfold trimOlder
          rw [if_pos hcond]
          unfold cutPoint
          rw [if_neg hovl]
          exact List.mem_singleton.2 rfl
        · -- the identical witness r is overlapped by the newer p and cut
          have hne_q : q.start_time < q.end_time := by
            have h3 := hid.2.1
            have h4 := hid.2.2
            omega
          by_cases hex : ∃ x ∈ S.flatMap (trimOlder p) ++
              subtractAll [p] (blockers p S),
              sameId q x ∧ q.captured_at ≤ x.captured_at
          · exact Or.inl hex
          refine Or.inr ⟨hne_q, ?_, ?_, ?_⟩
          · -- no element identical to q remains
            intro x hx hidx
            rcases List.mem_append.1 hx with hx1 | hx1
            · rcases List.mem_flatMap.1 hx1 with ⟨a, ha, hxa⟩
              unfold trimOlder at hxa
              split at hxa
              next hca =>
                rcases overlap_witness hovl with ⟨t0, ht0r, ht0p⟩
                have ht0x : covers x t0 := by
                  rcases hidx with ⟨_, hs, he⟩
                  rcases hid with ⟨_, hs2, he2⟩
                  rcases ht0r with ⟨u1, u2⟩
                  constructor <;> omega
                exact avoid_of_mem_cut hxa t0 ht0x ht0p
              next hca =>
                rcases List.mem_singleton.1 hxa with rfl
                by_cases hxr : x = r
                · subst hxr
                  exact hca hcond
                · have hdis := hforall ha hr hxr
                  exact hdis (hidx.1.trans hid.1.symm) q.start_time
                    ⟨covers_start_of_sameId hidx hne_q,
                      covers_start_of_sameId hid hne_q⟩
            · rcases mem_pieces hx1 with ⟨_, _, hcapx, _, _⟩
              refine hex ⟨x, hx, hidx, ?_⟩
              rw [hcapx]
              exact le_of_lt (lt_of_le_of_lt hcap hcond.2)
          · -- coverage of the interval of q
            intro t ht
            have hcovr : covers r t := by
              rcases ht with ⟨u1, u2⟩
              rcases hid with ⟨_, hs2, he2⟩
              constructor <;> omega
            by_cases hpt : covers p t
            · by_cases hb : ∃ b0 ∈ blockers p S, covers b0 t
              · rcases hb with ⟨b0, hb0, hcb⟩
                rcases mem_blockers.1 hb0 with ⟨hb0S, hbprov, hbcap⟩
                refine ⟨b0, List.mem_append.2 (Or.inl
                  (List.mem_flatMap.2 ⟨b0, hb0S, ?_⟩)),
                  hbprov.trans (hcond.1.symm.trans hid.1), ?_, hcb⟩
                · unfold trimOlder
                  rw [if_neg fun hc => absurd hbcap (not_le.2 hc.2)]
                  exact List.mem_singleton.2 rfl
                · exact le_of_lt (lt_of_le_of_lt hcap
                    (lt_of_lt_of_le hcond.2 hbcap))
              · push_neg at hb
                rcases subtractAll_complete (List.mem_singleton.2 rfl) hpt
                    (fun q0 hq0 => hb q0 hq0) with ⟨r', hr', hcr'⟩
                rcases mem_pieces hr' with ⟨hprov', _, hcap', _, _⟩
                refine ⟨r', List.mem_append.2 (Or.inr hr'),
                  hprov'.trans (hcond.1.symm.trans hid.1), ?_, hcr'⟩
                rw [hcap']
                exact le_of_lt (lt_of_le_of_lt hcap hcond.2)
            · rcases mem_cut_complete hcovr hpt with ⟨r1, hr1, hcr1⟩
              have hr1mem : r1 ∈ trimOlder p r := by
                unfold trimOlder
                rw [if_pos hcond]
                exact hr1
              rcases fields_of_mem_cut hr1 with ⟨g1, _, g3⟩
              refine ⟨r1, List.mem_append.2 (Or.inl
                (List.mem_flatMap.2 ⟨r, hr, hr1mem⟩)),
                g1.trans hid.1, by rw [g3]; exact hcap, hcr1⟩
          · -- no strictly older same-provider intruder remains
            intro x hx hprovx hcapx t ⟨hxt, hqt⟩
            have hcovr : covers r t := by
              rcases hqt with ⟨u1, u2⟩
              rcases hid with ⟨_, hs2, he2⟩
              constructor <;> omega
            rcases List.mem_append.1 hx with hx1 | hx1
            · rcases List.mem_flatMap.1 hx1 with ⟨a, ha, hxa⟩
              unfold trimOlder at hxa
              split at hxa
              next hca =>
                rcases fields_of_mem_cut hxa with ⟨f1, _, f3⟩
                by_cases har : a = r
                · subst har
                  have : x.captured_at = a.captured_at := f3
                  omega
                · have hdis := hforall ha hr har
                  exact hdis (f1.symm.trans (hprovx.trans hid.1.symm)) t
                    ⟨covers_mono_of_mem_cut hxa t hxt, hcovr⟩
              next hca =>
                rcases List.mem_singleton.1 hxa with rfl
                by_cases hxr : x = r
                · subst hxr
                  omega
                · have hdis := hforall ha hr hxr
                  exact hdis (hprovx.trans hid.1.symm) t ⟨hxt, hcovr⟩
            · rcases mem_pieces hx1 with ⟨_, _, hcapx2, _, _⟩
              rw [hcapx2] at hcapx
              have : q.captured_at ≤ r.captured_at := hcap
              omega
      · -- q was settled without an identical witness
        by_cases hex : ∃ x ∈ S.flatMap (trimOlder p) ++
            subtractAll [p] (blockers p S),
            sameId q x ∧ q.captured_at ≤ x.captured_at
        · exact Or.inl hex
        refine Or.inr ⟨hne, ?_, ?_, ?_⟩
        · -- no element identical to q appears
          intro x hx hidx
          rcases List.mem_append.1 hx with hx1 | hx1
          · rcases List.mem_flatMap.1 hx1 with ⟨a, ha, hxa⟩
            unfold trimOlder at hxa
            split at hxa
            next hca =>
              rcases fields_of_mem_cut hxa with ⟨f1, _, f3⟩
              by_cases hqa : a.captured_at < q.captured_at
              · exact hold a ha (f1.symm.trans hidx.1) hqa q.start_time
                  ⟨covers_mono_of_mem_cut hxa _
                    (covers_start_of_sameId hidx hne), ⟨le_refl _, hne⟩⟩
              · exact hex ⟨x, hx, hidx, by rw [f3]; exact not_lt.1 hqa⟩
            next hca =>
              rcases List.mem_singleton.1 hxa with rfl
              exact hnoid x ha hidx
          · rcases mem_pieces hx1 with ⟨hprovx, _, hcapx, _, hav⟩
            by_cases hqp : p.captured_at < q.captured_at
            · rcases hcov q.start_time ⟨le_refl _, hne⟩ with
                ⟨r0, hr0, hprov0, hcap0, hcov0⟩
              have hr0b : r0 ∈ blockers p S := by
                refine mem_blockers.2 ⟨hr0, ?_, ?_⟩
                · exact hprov0.trans (hidx.1.symm.trans hprovx)
                · exact le_of_lt (lt_of_lt_of_le hqp hcap0)
              exact hav r0 hr0b q.start_time
                (covers_start_of_sameId hidx hne) hcov0
            · exact hex ⟨x, hx, hidx, by rw [hcapx]; exact not_lt.1 hqp⟩
        · -- coverage of the interval of q
          intro t ht
          rcases hcov t ht with ⟨r0, hr0, hprov0, hcap0, hcov0⟩
          by_cases hcond0 : r0.provider_id = p.provider_id ∧
              r0.captured_at < p.captured_at
          swap
          · refine ⟨r0, List.mem_append.2 (Or.inl
              (List.mem_flatMap.2 ⟨r0, hr0, ?_⟩)), hprov0, hcap0, hcov0⟩
            unfold trimOlder
            rw [if_neg hcond0]
            exact List.mem_singleton.2 rfl
          by_cases hpt : covers p t
          · by_cases hb : ∃ b0 ∈ blockers p S, covers b0 t
            · rcases hb with ⟨b0, hb0, hcb⟩
              rcases mem_blockers.1 hb0 with ⟨hb0S, hbprov, hbcap⟩
              refine ⟨b0, List.mem_append.2 (Or.inl
                (List.mem_flatMap.2 ⟨b0, hb0S, ?_⟩)),
                hbprov.trans (hcond0.1.symm.trans hprov0), ?_, hcb⟩
              · unfold trimOlder
                rw [if_neg fun hc => absurd hbcap (not_le.2 hc.2)]
                exact List.mem_singleton.2 rfl
              · exact le_trans hcap0 (le_trans (le_of_lt hcond0.2) hbcap)
            · push_neg at hb
              rcases subtractAll_complete (List.mem_singleton.2 rfl) hpt
                  (fun q0 hq0 => hb q0 hq0) with ⟨r', hr', hcr'⟩
              rcases mem_pieces hr' with ⟨hprov', _, hcap', _, _⟩
              refine ⟨r', List.mem_append.2 (Or.inr hr'),
                hprov'.trans (hcond0.1.symm.trans hprov0), ?_, hcr'⟩
              rw [hcap']
              exact le_trans hcap0 (le_of_lt hcond0.2)
          · rcases mem_cut_complete hcov0 hpt with ⟨r1, hr1, hcr1⟩
            have hr1mem : r1 ∈ trimOlder p r0 := by
              unfold trimOlder
              rw [if_pos hcond0]
              exact hr1
            rcases fields_of_mem_cut hr1 with ⟨g1, _, g3⟩
            refine ⟨r1, List.mem_append.2 (Or.inl
              (List.mem_flatMap.2 ⟨r0, hr0, hr1mem⟩)),
              g1.trans hprov0, by rw [g3]; exact hcap0, hcr1⟩
        · -- no strictly older same-provider intruder appears
          intro x hx hprovx hcapx t ⟨hxt, hqt⟩
          rcases List.mem_append.1 hx with hx1 | hx1
          · rcases List.mem_flatMap.1 hx1 with ⟨a, ha, hxa⟩
            unfold trimOlder at hxa
            split at hxa
            next hca =>
              rcases fields_of_mem_cut hxa with ⟨f1, _, f3⟩
              exact hold a ha (f1.symm.trans hprovx)
                (by rw [← f3]; exact hcapx) t
                ⟨covers_mono_of_mem_cut hxa t hxt, hqt⟩
            next hca =>
              rcases List.mem_singleton.1 hxa with rfl
              exact hold x ha hprovx hcapx t ⟨hxt, hqt⟩
          · rcases mem_pieces hx1 with ⟨hprovx2, _, hcapx2, _, hav⟩
            rcases hcov t hqt with ⟨r0, hr0, hprov0, hcap0, hcov0⟩
            have hr0b : r0 ∈ blockers p S := by
              refine mem_blockers.2 ⟨hr0, hprov0.trans
                (hprovx.symm.trans hprovx2), ?_⟩
              rw [hcapx2] at hcapx
              exact le_trans (le_of_lt hcapx) hcap0
            exact hav r0 hr0b t hxt hcov0

lemma cond_upsert_preserved {S : List PricePoint} (hS : NoOverlap S)
    {q : PricePoint} (hq : Cond q S) (B : List PricePoint) :
    Cond q (upsert S B) := by
  induction B generalizing S with
  | nil => exact hq
  | cons p B ih =>
    exact ih (noOverlap_upsertPoint p hS) (cond_preserved hS hq p)

lemma cond_all_of_upsert {S : List PricePoint} (hS : NoOverlap S)
    (B : List PricePoint) : ∀ q ∈ B, Cond q (upsert S B) := by
  induction B generalizing S with
  | nil => intro q hq; exact absurd hq (List.not_mem_nil _)
  | cons p B ih =>
    intro q hq
    rcases List.mem_cons.1 hq with rfl | hq2
    · exact cond_upsert_preserved (noOverlap_upsertPoint q hS)
        (cond_upsertPoint_self S q) B
    · exact ih (noOverlap_upsertPoint p hS) q hq2

lemma upsert_of_settled {T : List PricePoint} {B : List PricePoint}
    (h : ∀ q ∈ B, upsertPoint T q = T) : upsert T B = T := by
  induction B with
  | nil => rfl
  | cons p B ih =>
    have h0 : upsertPoint T p = T := h p (List.mem_cons_self p B)
    show upsert (upsertPoint T p) B = T
    rw [h0]
    exact ih fun q hq => h q (List.mem_cons_of_mem p hq)

/-! ### Alert evaluator -/

/-- Modelled from the spec: a user-defined threshold rule.  `below` mirrors
the `alert_type` column (`below`/`above`), `min_duration` is the required
continuous-satisfaction length counted in evaluation windows, and
`is_active` mirrors the activation flag. -/
structure AlertRule where
  threshold : ℚ
  below : Bool
  min_duration : ℕ
  is_active : Bool

/-- Modelled from the spec: the rule's comparison of the relevant metric
against the threshold. -/
def satisfies (r : AlertRule) (v : ℚ) : Prop :=
  if r.below then v < r.threshold else r.threshold < v

instance (r : AlertRule) (v : ℚ) : Decidable (satisfies r v) := by
  unfold satisfies
  infer_instance

/-- Evaluator state for one rule: length of the current continuous
satisfaction run and whether the event for this run was already emitted. -/
structure AlertState where
  runLength : ℕ
  fired : Bool
deriving DecidableEq

def initAlertState : AlertState := ⟨0, false⟩

/-- Modelled from the spec: one evaluation of an active rule on a new
aggregate.  On first continuous satisfaction crossing `min_duration` one
event is emitted (second component `true`); while the condition remains
continuously true no further event is emitted; when the condition becomes
false the run resets.  Inactive rules are not evaluated. -/
def alertStep (r : AlertRule) (s : AlertState) (v : ℚ) : AlertState × Bool :=
  if r.is_active = true then
    if satisfies r v then
      if r.min_duration ≤ s.runLength + 1 ∧ s.fired = false then
        (⟨s.runLength + 1, true⟩, true)
      else (⟨s.runLength + 1, s.fired⟩, false)
    else (initAlertState, false)
  else (s, false)

/-- Run the evaluator over a series of metric values, accumulating the
number of emitted `AlertEvent`s. -/
def alertFold (r : AlertRule) (sc : AlertState × ℕ) (vs : List ℚ) :
    AlertState × ℕ :=
  vs.foldl
    (fun sc v =>
      ((alertStep r sc.1 v).1,
        sc.2 + if (alertStep r sc.1 v).2 then 1 else 0)) sc

def alertStateAfter (r : AlertRule) (s : AlertState) (vs : List ℚ) :
    AlertState :=
  (alertFold r (s, 0) vs).1

def alertCount (r : AlertRule) (s : AlertState) (vs : List ℚ) : ℕ :=
  (alertFold r (s, 0) vs).2

lemma alertFold_append (r : AlertRule) (sc : AlertState × ℕ)
    (vs ws : List ℚ) :
    alertFold r sc (vs ++ ws) = alertFold r (alertFold r sc vs) ws :=
  List.foldl_append ..

lemma alertFold_fired (r : AlertRule) (hact : r.is_active = true)
    {vs : List ℚ} (hvs : ∀ v ∈ vs, satisfies r v) :
    ∀ k c, ∃ m, alertFold r (⟨k, true⟩, c) vs = (⟨m, true⟩, c) := by
  induction vs with
  | nil => exact fun k c => ⟨k, rfl⟩
  | cons v vs ih =>
    intro k c
    have hsv : satisfies r v := hvs v (List.mem_cons_self v vs)
    have hstep : alertStep r ⟨k, true⟩ v = (⟨k + 1, true⟩, false) := by
      unfold alertStep
      rw [if_pos hact, if_pos hsv, if_neg]
      intro ⟨_, hcon⟩
      simp at hcon
    show ∃ m, alertFold r
      ((alertStep r ⟨k, true⟩ v).1,
        c + if (alertStep r ⟨k, true⟩ v).2 then 1 else 0) vs = (⟨m, true⟩, c)
    rw [hstep]
    exact ih (fun w hw => hvs w (List.mem_cons_of_mem v hw)) (k + 1) c

lemma alertFold_fires_once (r : AlertRule) (hact : r.is_active = true)
    {vs : List ℚ} (hvs : ∀ v ∈ vs, satisfies r v) :
    ∀ k c, k < r.min_duration → r.min_duration ≤ k + vs.length →
      ∃ m, alertFold r (⟨k, false⟩, c) vs = (⟨m, true⟩, c + 1) := by
  induction vs with
  | nil =>
    intro k c h1 h2
    simp only [List.length_nil, Nat.add_zero] at h2
    omega
  | cons v vs ih =>
    intro k c h1 h2
    have hsv : satisfies r v := hvs v (List.mem_cons_self v vs)
    by_cases hd : r.min_duration ≤ k + 1
    · have hstep : alertStep r ⟨k, false⟩ v = (⟨k + 1, true⟩, true) := by
        unfold alertStep
        rw [if_pos hact, if_pos hsv, if_pos ⟨hd, rfl⟩]
      show ∃ m, alertFold r
        ((alertStep r ⟨k, false⟩ v).1,
          c + if (alertStep r ⟨k, false⟩ v).2 then 1 else 0) vs =
          (⟨m, true⟩, c + 1)
      rw [hstep]
      exact alertFold_fired r hact
        (fun w hw => hvs w (List.mem_cons_of_mem v hw)) (k + 1) (c + 1)
    · have hstep : alertStep r ⟨k, false⟩ v = (⟨k + 1, false⟩, false) := by
        unfold alertStep
        rw [if_pos hact, if_pos hsv, if_neg fun hcon => hd hcon.1]
      show ∃ m, alertFold r
        ((alertStep r ⟨k, false⟩ v).1,
          c + if (alertStep r ⟨k, false⟩ v).2 then 1 else 0) vs =
          (⟨m, true⟩, c + 1)
      rw [hstep]
      refine ih (fun w hw => hvs w (List.mem_cons_of_mem v hw)) (k + 1) c
        (by omega) ?_
      simp only [List.length_cons] at h2
      omega

lemma alertStep_reset (r : AlertRule) (hact : r.is_active = true)
    (s : AlertState) {x : ℚ} (hx : ¬ satisfies r x) :
    alertStep r s x = (initAlertState, false) := by
  unfold alertStep
  rw [if_pos hact, if_neg hx]

/-! ### Fetch scheduler health state -/

/-- Modelled from the spec: per-provider scheduler health state — either
active with a count of consecutive transient failures, or disabled. -/
inductive ProviderState where
  | active (failures : ℕ)
  | disabled
deriving DecidableEq

/-- Modelled from the spec: the observable scheduler events for one
provider — a fetch ending in a transient failure, a fetch ending in
success, and the explicit external reset action. -/
inductive SchedEvent where
  | fetchFailure (pid : ℕ)
  | fetchSuccess (pid : ℕ)
  | reset (pid : ℕ)
deriving DecidableEq

def eventPid : SchedEvent → ℕ
  | .fetchFailure i => i
  | .fetchSuccess i => i
  | .reset i => i

/-- Modelled from the spec: the default threshold of consecutive transient
failures, N = 5. -/
def defaultMaxFailures : ℕ := 5

def SchedState := ℕ → ProviderState

/-- Modelled from the spec: scheduler transition.  A transient failure
increments the provider's consecutive-failure count and disables it at the
threshold; a success resets the count; the provider is not polled while
disabled, so fetch outcomes leave a disabled provider disabled; only the
explicit reset re-enables it.  Providers other than the event's target are
untouched. -/
def schedStep (n : ℕ) (σ : SchedState) (e : SchedEvent) : SchedState :=
  match e with
  | .fetchFailure i => fun j =>
    if j = i then
      match σ i with
      | .active k => if n ≤ k + 1 then .disabled else .active (k + 1)
      | .disabled => .disabled
    else σ j
  | .fetchSuccess i => fun j =>
    if j = i then
      match σ i with
      | .active _ => .active 0
      | .disabled => .disabled
    else σ j
  | .reset i => fun j => if j = i then .active 0 else σ j

def schedRun (n : ℕ) (σ : SchedState) (events : List SchedEvent) :
    SchedState :=
  events.foldl (schedStep n) σ

/-- A provider is polled only while not disabled. -/
def polled (σ : SchedState) (i : ℕ) : Prop := σ i ≠ ProviderState.disabled

lemma schedStep_disabled_absorbing {n : ℕ} {σ : SchedState} {i : ℕ}
    (h : σ i = ProviderState.disabled) {e : SchedEvent}
    (he : e ≠ SchedEvent.reset i) : schedStep n σ e i = .disabled := by
  cases e with
  | fetchFailure j =>
    show (if i = j then _ else σ i) = _
    split
    next hij => subst hij; rw [h]
    next => exact h
  | fetchSuccess j =>
    show (if i = j then _ else σ i) = _
    split
    next hij => subst hij; rw [h]
    next => exact h
  | reset j =>
    show (if i = j then ProviderState.active 0 else σ i) = _
    rw [if_neg fun hij => he (by rw [hij]), h]

lemma schedRun_disabled_absorbing {n : ℕ} {σ : SchedState} {i : ℕ}
    (h : σ i = ProviderState.disabled) {events : List SchedEvent}
    (he : ∀ e ∈ events, e ≠ SchedEvent.reset i) :
    schedRun n σ events i = .disabled := by
  induction events generalizing σ with
  | nil => exact h
  | cons e events ih =>
    exact ih
      (schedStep_disabled_absorbing h (he e (List.mem_cons_self e events)))
      fun x hx => he x (List.mem_cons_of_mem e hx)

lemma schedStep_frame {n : ℕ} {σ : SchedState} {i j : ℕ}
    {e : SchedEvent} (he : eventPid e = i) (hj : j ≠ i) :
    schedStep n σ e j = σ j := by
  cases e with
  | fetchFailure m =>
    simp only [eventPid] at he
    subst he
    exact if_neg hj
  | fetchSuccess m =>
    simp only [eventPid] at he
    subst he
    exact if_neg hj
  | reset m =>
    simp only [eventPid] at he
    subst he
    exact if_neg hj

lemma schedRun_frame {n : ℕ} {σ : SchedState} {i j : ℕ}
    {events : List SchedEvent} (he : ∀ e ∈ events, eventPid e = i)
    (hj : j ≠ i) : schedRun n σ events j = σ j := by
  induction events generalizing σ with
  | nil => rfl
  | cons e events ih =>
    show schedRun n (schedStep n σ e) events j = σ j
    rw [ih fun x hx => he x (List.mem_cons_of_mem e hx),
      schedStep_frame (he e (List.mem_cons_self e events)) hj]

lemma schedRun_failures_disable {σ : SchedState} {i : ℕ} :
    ∀ m k, σ i = ProviderState.active k → 1 ≤ m →
      defaultMaxFailures ≤ k + m →
      schedRun defaultMaxFailures σ
        (List.replicate m (SchedEvent.fetchFailure i)) i = .disabled := by
  intro m
  induction m generalizing σ with
  | zero => omega
  | succ m ih =>
    intro k hk _ hbound
    have hrep : List.replicate (m + 1) (SchedEvent.fetchFailure i) =
        SchedEvent.fetchFailure i ::
          List.replicate m (SchedEvent.fetchFailure i) :=
      List.replicate_succ ..
    rw [hrep]
    show schedRun defaultMaxFailures
      (schedStep defaultMaxFailures σ (SchedEvent.fetchFailure i))
      (List.replicate m (SchedEvent.fetchFailure i)) i = .disabled
    have hstep : schedStep defaultMaxFailures σ (SchedEvent.fetchFailure i)
        i = if defaultMaxFailures ≤ k + 1 then ProviderState.disabled
          else ProviderState.active (k + 1) := by
      show (if i = i then _ else σ i) = _
      rw [if_pos rfl, hk]
    by_cases hd : defaultMaxFailures ≤ k + 1
    · rw [if_pos hd] at hstep
      exact schedRun_disabled_absorbing hstep
        fun e hee => by
          rw [List.eq_of_mem_replicate hee]
          exact fun hcon => SchedEvent.noConfusion hcon
    · rw [if_neg hd] at hstep
      have h5 : defaultMaxFailures = 5 := rfl
      rw [h5] at hd hbound
      have hm : 1 ≤ m := by omega
      exact ih (k + 1) hstep hm (by rw [h5]; omega)

/-! ### Aggregation engine -/

/-- Modelled from the spec: the hour-of-day of a point measured in whole
hours. -/
def hourOfDay (t : ℤ) : ℤ := t % 24

/-- Modelled from the spec: the prices of the stored points falling into a
given hour-of-day bucket. -/
def hourPrices (pts : List PricePoint) (h : ℤ) : List ℚ :=
  (pts.filter fun p => decide (hourOfDay p.start_time = h)).map
    PricePoint.price

/-- Modelled from the spec: the hour-of-day average.  The average over a
bucket with no points is undefined (`none`) — a gap is excluded, never
counted as zero-price; otherwise it is the arithmetic mean of exactly the
present points. -/
def hourlyAverage (pts : List PricePoint) (h : ℤ) : Option ℚ :=
  if hourPrices pts h = [] then none
  else some ((hourPrices pts h).sum / (hourPrices pts h).length)

/-- One row of the `/api/v1/analysis/daily-averages` response consumed by
the frontend. -/
structure HourEntry where
  hour : ℤ
  average_price : ℚ
  min_price : ℚ
  max_price : ℚ
deriving DecidableEq

/-- The average-price dataset built by `renderDailyAveragesChart`
(`src/frontend/app.js`): one chart point per returned entry, no filling of
absent hours. -/
def dailyAveragesChartData (entries : List HourEntry) : List (ℤ × ℚ) :=
  entries.map fun item => (item.hour, item.average_price)

/-! ### Frontend (`src/frontend/app.js`) -/

/-- Embedding of `calculatePriceChange` from `src/frontend/app.js` (lines 323-343).  The
function reads the wall-clock hour and draws `Math.random()` (modelled as
the parameter `rand` with `0 ≤ rand < 1`); it never consults a stored price
series. -/
def calculatePriceChange (hour : ℕ) (rand : ℚ) : ℚ :=
  if 6 ≤ hour ∧ hour ≤ 9 then rand * 3 + 1/2
  else if 18 ≤ hour ∧ hour ≤ 21 then rand * (5/2) + 3/10
  else if 22 ≤ hour ∨ hour ≤ 5 then -(rand * 2 + 1/5)
  else (rand - 1/2) * 3

/-- Modelled from the spec: the trend delta of the current view — the price
of the latest stored point minus the price of the point immediately
preceding it, over a provider's time-ordered price series. -/
def trendDelta (prices : List ℚ) : Option ℚ :=
  match prices.reverse with
  | latest :: prev :: _ => some (latest - prev)
  | _ => none

/-- One element of the `currentPrices` array of `src/frontend/app.js`. -/
structure CurrentPriceEntry where
  provider_id : ℕ
  provider_name : String
  current_price : ℚ
  total_price : Option ℚ
  timestamp : ℤ
deriving DecidableEq

/-- The data of one price card produced by `createPriceCard`
(`src/frontend/app.js`, lines 287-321): provider name, price, and the
best-price/high-price markers. -/
structure PriceCard where
  name : String
  price : ℚ
  best_price : Bool
  high_price : Bool
deriving DecidableEq

def createPriceCard (priceData : CurrentPriceEntry)
    (minPrice maxPrice : ℚ) : PriceCard :=
  { name := priceData.provider_name
    price := priceData.current_price
    best_price := decide (priceData.current_price = minPrice)
    high_price := decide (priceData.current_price = maxPrice) }

/-- Model of `Math.min(...prices)` on a nonempty spread. -/
def listMin : List ℚ → ℚ
  | [] => 0
  | x :: xs => xs.foldl min x

/-- Model of `Math.max(...prices)` on a nonempty spread. -/
def listMax : List ℚ → ℚ
  | [] => 0
  | x :: xs => xs.foldl max x

/-- What `renderCurrentPrices` leaves in the price-cards container. -/
inductive RenderedPrices where
  | warning
  | cards (cs : List PriceCard)
deriving DecidableEq

/-- Embedding of `renderCurrentPrices` from `src/frontend/app.js` (lines 255-285): on an
empty price list it writes a single warning alert and returns before
computing the minimum/maximum; otherwise it computes min/max of the prices
and builds one card per entry. -/
def renderCurrentPrices (currentPrices : List CurrentPriceEntry) :
    RenderedPrices :=
  match currentPrices with
  | [] => .warning
  | x :: xs =>
    .cards ((x :: xs).map fun priceData =>
      createPriceCard priceData
        (listMin ((x :: xs).map CurrentPriceEntry.current_price))
        (listMax ((x :: xs).map CurrentPriceEntry.current_price)))

/-- Content of a statistics element: a number or the `--` placeholder. -/
inductive StatDisplay where
  | dashes
  | value (q : ℚ)
deriving DecidableEq

/-- JavaScript `Number.prototype.toFixed(1)`, modelled on rationals as
rounding to one decimal place. -/
def toFixed1 (q : ℚ) : ℚ := (round (q * 10) : ℤ) / 10

/-- The savings computation of `renderStatistics` from
`src/frontend/app.js` (lines 690-717): the guard
`todayStats.min_price && todayStats.max_price` is JavaScript truthiness, so
a missing, null or zero price falls through to `--`. -/
def savingsDisplay : Option ℚ → Option ℚ → StatDisplay
  | some m, some M =>
    if m ≠ 0 ∧ M ≠ 0 then .value (toFixed1 ((M - m) / M * 100))
    else .dashes
  | _, _ => .dashes

/-- One provider entry of a `current_prices` live-update event. -/
structure PriceUpdate where
  id : ℕ
  current_price : ℚ
deriving DecidableEq

/-- A live-update event as consumed by `handlePriceUpdate`. -/
structure UpdateEvent where
  etype : String
  providers : List PriceUpdate

/-- The `currentPrices.find(...)` + in-place mutation of one provider
update in `handlePriceUpdate`: only the first entry with the matching
provider id gets its `current_price` and `timestamp` replaced. -/
def applyProviderUpdate (now : ℤ) (u : PriceUpdate) :
    List CurrentPriceEntry → List CurrentPriceEntry
  | [] => []
  | e :: rest =>
    if e.provider_id = u.id then
      { e with current_price := u.current_price, timestamp := now } :: rest
    else e :: applyProviderUpdate now u rest

/-- Embedding of `handlePriceUpdate` from `src/frontend/app.js` (lines 756-770): only
events of type `current_prices` touch `currentPrices`; each provider update
is applied to the already-present matching entry, if any. -/
def handlePriceUpdate (now : ℤ) (currentPrices : List CurrentPriceEntry)
    (ev : UpdateEvent) : List CurrentPriceEntry :=
  if ev.etype = "current_prices" then
    ev.providers.foldl (fun acc u => applyProviderUpdate now u acc)
      currentPrices
  else currentPrices

/-- Frame relation between an old and a new `currentPrices` entry under a
`current_prices` event: provider id, provider name and total price are
unchanged; the entry either stays identical or gets `timestamp := now` and
a `current_price` taken from a matching update; an entry matching no update
is untouched. -/
def updFrame (now : ℤ) (us : List PriceUpdate)
    (a b : CurrentPriceEntry) : Prop :=
  b.provider_id = a.provider_id ∧ b.provider_name = a.provider_name ∧
    b.total_price = a.total_price ∧
    (b = a ∨ (b.timestamp = now ∧
      ∃ u ∈ us, u.id = a.provider_id ∧ b.current_price = u.current_price)) ∧
    ((∀ u ∈ us, u.id ≠ a.provider_id) → b = a)

lemma updFrame_refl (now : ℤ) (us : List PriceUpdate)
    (a : CurrentPriceEntry) : updFrame now us a a :=
  ⟨rfl, rfl, rfl, Or.inl rfl, fun _ => rfl⟩

lemma updFrame_apply {now : ℤ} {us : List PriceUpdate} {u : PriceUpdate}
    (hu : u ∈ us) :
    ∀ {cps acc : List CurrentPriceEntry},
      List.Forall₂ (updFrame now us) cps acc →
      List.Forall₂ (updFrame now us) cps (applyProviderUpdate now u acc) := by
  intro cps acc h
  induction h with
  | nil => exact List.Forall₂.nil
  | cons hR hRs ih =>
    rename_i a b cps2 acc2
    show List.Forall₂ _ (a :: cps2)
      (if b.provider_id = u.id then _ :: acc2
        else b :: applyProviderUpdate now u acc2)
    split
    next heq =>
      refine List.Forall₂.cons ⟨hR.1, hR.2.1, hR.2.2.1, ?_, ?_⟩ hRs
      · exact Or.inr ⟨rfl, u, hu, heq.symm.trans hR.1, rfl⟩
      · intro hnone
        exact absurd (heq.symm.trans hR.1) (hnone u hu)
    next heq => exact List.Forall₂.cons hR ih

lemma updFrame_foldl {now : ℤ} {us : List PriceUpdate}
    {l : List PriceUpdate} (hl : ∀ u ∈ l, u ∈ us) :
    ∀ {cps acc : List CurrentPriceEntry},
      List.Forall₂ (updFrame now us) cps acc →
      List.Forall₂ (updFrame now us) cps
        (l.foldl (fun acc u => applyProviderUpdate now u acc) acc) := by
  induction l with
  | nil => exact fun h => h
  | cons u l ih =>
    intro cps acc h
    exact ih (fun x hx => hl x (List.mem_cons_of_mem u hx))
      (updFrame_apply (hl u (List.mem_cons_self u l)) h)

/-! ### Claim theorems -/

/-- C1: the spec asks that the displayed trend delta of the current view be
the price of the latest stored point minus the price of the point
immediately preceding it.  The frontend's `calculatePriceChange` instead
returns a simulated value depending only on the wall-clock hour and a
random draw: here the stored series `[20, 30]` has trend delta `10`, while
the code at hour 12 with draw `1/2` displays `0`, and no draw can produce
`10` at that hour. -/
theorem calculatePriceChange_not_trendDelta :
    trendDelta [20, 30] = some 10 ∧ calculatePriceChange 12 (1/2) = 0 ∧
      some (calculatePriceChange 12 (1/2)) ≠ trendDelta [20, 30] := by
  have htd : trendDelta [20, 30] = some 10 := by norm_num [trendDelta]
  refine ⟨htd, by norm_num [calculatePriceChange], ?_⟩
  intro hcon
  rw [htd] at hcon
  have : calculatePriceChange 12 (1/2) = 10 := Option.some.inj hcon
  norm_num [calculatePriceChange] at this

/-- C2: for every finite sequence of upserts applied to an initially empty
store, no two stored `PricePoint` intervals of one provider overlap after
each upsert completes (every prefix of the sequence is itself such a
sequence). -/
theorem upsert_sequence_no_overlap (batches : List (List PricePoint)) :
    NoOverlap (batches.foldl upsert []) := by
  have hstep : ∀ S, NoOverlap S → NoOverlap (batches.foldl upsert S) := by
    induction batches with
    | nil => exact fun _ h => h
    | cons B bs ih => exact fun S h => ih (upsert S B) (noOverlap_upsert B h)
  exact hstep [] List.Pairwise.nil

/-- C3: upserting the same batch twice into a store satisfying the
per-provider no-overlap invariant (which holds for every store state the
system produces, by `upsert_sequence_no_overlap`) yields the same stored
state as upserting it once. -/
theorem upsert_idempotent (store B : List PricePoint)
    (h : NoOverlap store) :
    upsert (upsert store B) B = upsert store B :=
  upsert_of_settled fun q hq =>
    upsertPoint_eq_of_cond (cond_all_of_upsert h B q hq)

theorem upsert_idempotent_witness :
    upsert (upsert [] [⟨1, 0, 2, 20, 0⟩, ⟨1, 1, 3, 22, 5⟩])
        [⟨1, 0, 2, 20, 0⟩, ⟨1, 1, 3, 22, 5⟩] =
      upsert [] [⟨1, 0, 2, 20, 0⟩, ⟨1, 1, 3, 22, 5⟩] :=
  upsert_idempotent [] [⟨1, 0, 2, 20, 0⟩, ⟨1, 1, 3, 22, 5⟩]
    List.Pairwise.nil

/-- C4: upserting two points of one provider with the identical interval
and different `captured_at`, in either order, leaves the store holding
exactly the point with the later `captured_at`. -/
theorem upsert_supersession (p q : PricePoint)
    (hprov : q.provider_id = p.provider_id)
    (hs : q.start_time = p.start_time) (he : q.end_time = p.end_time)
    (hcap : p.captured_at < q.captured_at) :
    upsert [] [p, q] = [q] ∧ upsert [] [q, p] = [q] := by
  have hsingle : ∀ x : PricePoint, upsertPoint [] x = [x] := by
    intro x
    unfold upsertPoint
    rw [if_neg (by simp), if_neg (by simp)]
    rfl
  have hqp : sameId q p := ⟨hprov.symm, hs.symm, he.symm⟩
  have hpq : sameId p q := ⟨hprov, hs, he⟩
  constructor
  · show upsertPoint (upsertPoint [] p) q = [q]
    rw [hsingle p]
    unfold upsertPoint
    rw [if_neg, if_pos ⟨p, List.mem_singleton.2 rfl, hqp⟩]
    · show [if sameId q p then q else p] = [q]
      rw [if_pos hqp]
    · intro ⟨x, hx, _, hle⟩
      rcases List.mem_singleton.1 hx with rfl
      omega
  · show upsertPoint (upsertPoint [] q) p = [q]
    rw [hsingle q]
    unfold upsertPoint
    rw [if_pos ⟨q, List.mem_singleton.2 rfl, hpq, le_of_lt hcap⟩]

theorem upsert_supersession_witness :
    upsert [] [⟨1, 0, 1, 20, 0⟩, ⟨1, 0, 1, 22, 5⟩] = [⟨1, 0, 1, 22, 5⟩] ∧
      upsert [] [⟨1, 0, 1, 22, 5⟩, ⟨1, 0, 1, 20, 0⟩] =
        [⟨1, 0, 1, 22, 5⟩] :=
  upsert_supersession ⟨1, 0, 1, 20, 0⟩ ⟨1, 0, 1, 22, 5⟩ rfl rfl rfl
    (by decide)

/-- C5: for every active rule and every series in which the condition
becomes true and stays continuously true for at least `min_duration`
consecutive evaluation windows, exactly one `AlertEvent` is emitted however
long the condition keeps holding; after the condition becomes false the
evaluator is back in its initial state, and a second satisfying run emits
exactly one further event. -/
theorem alert_edge_triggered (r : AlertRule) (vs ws : List ℚ)
    (hact : r.is_active = true) (hd : 1 ≤ r.min_duration)
    (hvs : ∀ v ∈ vs, satisfies r v) (hlen : r.min_duration ≤ vs.length)
    (hws : ∀ w ∈ ws, satisfies r w) :
    alertCount r initAlertState (vs ++ ws) = 1 ∧
      ∀ x, ¬ satisfies r x →
        alertStateAfter r initAlertState ((vs ++ ws) ++ [x]) =
            initAlertState ∧
          alertCount r initAlertState (((vs ++ ws) ++ [x]) ++ vs) = 2 := by
  obtain ⟨m1, h1⟩ := alertFold_fires_once r hact hvs 0 0 (by omega)
    (by omega)
  obtain ⟨m2, h2⟩ := alertFold_fired r hact hws m1 1
  have hfold : alertFold r (initAlertState, 0) (vs ++ ws) =
      (⟨m2, true⟩, 1) := by
    rw [alertFold_append]
    show alertFold r (alertFold r (⟨0, false⟩, 0) vs) ws = _
    rw [h1]
    exact h2
  constructor
  · show (alertFold r (initAlertState, 0) (vs ++ ws)).2 = 1
    rw [hfold]
  · intro x hx
    have hstepx : alertFold r ((⟨m2, true⟩ : AlertState), 1) [x] =
        (initAlertState, 1) := by
      show ((alertStep r ⟨m2, true⟩ x).1,
        1 + if (alertStep r ⟨m2, true⟩ x).2 then 1 else 0) = _
      rw [alertStep_reset r hact _ hx]
      rfl
    have hfold2 : alertFold r (initAlertState, 0) ((vs ++ ws) ++ [x]) =
        (initAlertState, 1) := by
      rw [alertFold_append, hfold, hstepx]
    constructor
    · show (alertFold r (initAlertState, 0) ((vs ++ ws) ++ [x])).1 = _
      rw [hfold2]
    · obtain ⟨m3, h3⟩ := alertFold_fires_once r hact hvs 0 1 (by omega)
        (by omega)
      show (alertFold r (initAlertState, 0)
        (((vs ++ ws) ++ [x]) ++ vs)).2 = 2
      rw [alertFold_append, hfold2]
      show (alertFold r ((⟨0, false⟩ : AlertState), 1) vs).2 = 2
      rw [h3]

theorem alert_edge_triggered_witness :
    alertCount ⟨20, true, 2, true⟩ initAlertState ([10, 10] ++ [15]) = 1 ∧
      alertStateAfter ⟨20, true, 2, true⟩ initAlertState
          (([10, 10] ++ [15]) ++ [30]) = initAlertState ∧
        alertCount ⟨20, true, 2, true⟩ initAlertState
          ((([10, 10] ++ [15]) ++ [30]) ++ [10, 10]) = 2 := by
  have h := alert_edge_triggered ⟨20, true, 2, true⟩ [10, 10] [15] rfl
    (by norm_num) (by norm_num [satisfies]) (by norm_num)
    (by norm_num [satisfies])
  have h30 : ¬ satisfies ⟨20, true, 2, true⟩ 30 := by norm_num [satisfies]
  exact ⟨h.1, (h.2 30 h30).1, (h.2 30 h30).2⟩

/-- C7: with the default threshold N = 5, five consecutive transient
failures put a provider into `disabled`; a disabled provider stays disabled
— and is hence never polled — under every event sequence that contains no
explicit reset for it; events aimed at one provider leave every other
provider's state untouched; and the explicit reset action re-enables the
provider. -/
theorem scheduler_disable_after_failures (σ : SchedState) (i : ℕ) :
    (∀ k, σ i = ProviderState.active k →
      schedRun defaultMaxFailures σ
        (List.replicate defaultMaxFailures (SchedEvent.fetchFailure i)) i =
        ProviderState.disabled) ∧
    (σ i = ProviderState.disabled →
      ∀ events : List SchedEvent, (∀ e ∈ events, e ≠ SchedEvent.reset i) →
        schedRun defaultMaxFailures σ events i = ProviderState.disabled ∧
          ¬ polled (schedRun defaultMaxFailures σ events) i) ∧
    (∀ events : List SchedEvent, (∀ e ∈ events, eventPid e = i) →
      ∀ j, j ≠ i → schedRun defaultMaxFailures σ events j = σ j) ∧
    schedStep defaultMaxFailures σ (SchedEvent.reset i) i =
      ProviderState.active 0 := by
  refine ⟨?_, ?_, ?_, ?_⟩
  · intro k hk
    exact schedRun_failures_disable defaultMaxFailures k hk (by decide)
      (by have h5 : defaultMaxFailures = 5 := rfl; omega)
  · intro hdis events he
    have habs : schedRun defaultMaxFailures σ events i =
        ProviderState.disabled := schedRun_disabled_absorbing hdis he
    exact ⟨habs, fun hp => hp habs⟩
  · intro events he j hj
    exact schedRun_frame he hj
  · show (if i = i then ProviderState.active 0 else σ i) = _
    rw [if_pos rfl]

theorem scheduler_disable_after_failures_witness :
    schedRun defaultMaxFailures (fun _ => ProviderState.active 0)
        (List.replicate defaultMaxFailures (SchedEvent.fetchFailure 1)) 1 =
        ProviderState.disabled ∧
      schedRun defaultMaxFailures (fun _ => ProviderState.disabled)
          [SchedEvent.fetchSuccess 1, SchedEvent.fetchFailure 1] 1 =
          ProviderState.disabled ∧
        schedRun defaultMaxFailures (fun _ => ProviderState.active 0)
          [SchedEvent.fetchFailure 1] 2 = ProviderState.active 0 := by
  refine ⟨?_, ?_, ?_⟩
  · exact (scheduler_disable_after_failures
      (fun _ => ProviderState.active 0) 1).1 0 rfl
  · exact ((scheduler_disable_after_failures
      (fun _ => ProviderState.disabled) 1).2.1 rfl
      [SchedEvent.fetchSuccess 1, SchedEvent.fetchFailure 1]
      (by decide)).1
  · exact (scheduler_disable_after_failures
      (fun _ => ProviderState.active 0) 1).2.2.1
      [SchedEvent.fetchFailure 1] (by decide) 2 (by decide)

/-- C6: hour-of-day aggregation excludes missing hours — the average over
an hour with no stored points is `none`, never a number computed as if the
gap were zero-price; the average over a present hour is the arithmetic mean
of exactly the present points; and the frontend's daily-averages chart
plots one point per returned entry, so absent hours stay absent. -/
theorem hourly_average_gap_excluded (pts : List PricePoint) (h : ℤ) :
    ((∀ p ∈ pts, hourOfDay p.start_time ≠ h) →
      hourlyAverage pts h = none) ∧
    (∀ a, hourlyAverage pts h = some a →
      hourPrices pts h ≠ [] ∧
        a * (hourPrices pts h).length = (hourPrices pts h).sum) ∧
    ∀ entries : List HourEntry,
      (dailyAveragesChartData entries).map Prod.fst =
        entries.map HourEntry.hour := by
  refine ⟨?_, ?_, ?_⟩
  · intro hgap
    have hnil : hourPrices pts h = [] := by
      unfold hourPrices
      rw [List.filter_eq_nil_iff.mpr ?_]
      · rfl
      · intro p hp
        simpa using hgap p hp
    unfold hourlyAverage
    rw [if_pos hnil]
  · intro a ha
    unfold hourlyAverage at ha
    split at ha
    · exact absurd ha (by simp)
    next hne =>
      refine ⟨hne, ?_⟩
      rw [← Option.some.inj ha]
      have hlen : ((hourPrices pts h).length : ℚ) ≠ 0 :=
        Nat.cast_ne_zero.2
          (Nat.pos_iff_ne_zero.mp (List.length_pos_of_ne_nil hne))
      exact div_mul_cancel₀ _ hlen
  · intro entries
    unfold dailyAveragesChartData
    rw [List.map_map]
    rfl

theorem hourly_average_gap_excluded_witness :
    hourlyAverage [⟨1, 0, 1, 20, 0⟩, ⟨1, 1, 2, 18, 0⟩, ⟨1, 3, 4, 25, 0⟩] 2
        = none ∧
      (hourPrices [⟨1, 0, 1, 20, 0⟩, ⟨1, 1, 2, 18, 0⟩,
            ⟨1, 3, 4, 25, 0⟩] 3 ≠ [] ∧
        (25 : ℚ) * (hourPrices [⟨1, 0, 1, 20, 0⟩, ⟨1, 1, 2, 18, 0⟩,
            ⟨1, 3, 4, 25, 0⟩] 3).length =
          (hourPrices [⟨1, 0, 1, 20, 0⟩, ⟨1, 1, 2, 18, 0⟩,
            ⟨1, 3, 4, 25, 0⟩] 3).sum) ∧
      (dailyAveragesChartData [⟨0, 20, 18, 22⟩]).map Prod.fst =
        [⟨0, 20, 18, 22⟩].map HourEntry.hour := by
  refine ⟨(hourly_average_gap_excluded _ 2).1 (by decide),
    (hourly_average_gap_excluded _ 3).2.1 25 ?_,
    (hourly_average_gap_excluded [] 0).2.2 [⟨0, 20, 18, 22⟩]⟩
  norm_num [hourlyAverage, hourPrices, hourOfDay, List.filter]

/-- C8: with an empty `currentPrices` list, `renderCurrentPrices` renders
the single warning alert and returns — no price card is built and no
min/max over the empty list is produced; with a nonempty list it renders
exactly one card per entry. -/
theorem renderCurrentPrices_empty_warning :
    renderCurrentPrices [] = RenderedPrices.warning ∧
      ∀ cps : List CurrentPriceEntry, cps ≠ [] →
        ∃ cs, renderCurrentPrices cps = RenderedPrices.cards cs ∧
          cs.length = cps.length := by
  refine ⟨rfl, ?_⟩
  intro cps hne
  match cps with
  | [] => exact absurd rfl hne
  | x :: xs =>
    exact ⟨_, rfl, by simp [List.length_map]⟩

theorem renderCurrentPrices_empty_warning_witness :
    ∃ cs, renderCurrentPrices [⟨1, "aWATTar", 24, none, 0⟩] =
        RenderedPrices.cards cs ∧ cs.length = 1 :=
  renderCurrentPrices_empty_warning.2 [⟨1, "aWATTar", 24, none, 0⟩]
    (by simp)

/-- C9: the savings element shows
`((max_price - min_price) / max_price * 100)` rounded to one decimal
exactly when both `min_price` and `max_price` are JavaScript-truthy; a
missing, null or zero price — including a legitimate price of 0 ct/kWh —
yields the `--` placeholder instead. -/
theorem renderStatistics_savings (mp Mp : Option ℚ) :
    (∀ m M, mp = some m → Mp = some M → m ≠ 0 → M ≠ 0 →
      savingsDisplay mp Mp =
        StatDisplay.value (toFixed1 ((M - m) / M * 100))) ∧
    ((mp = none ∨ mp = some 0 ∨ Mp = none ∨ Mp = some 0) →
      savingsDisplay mp Mp = StatDisplay.dashes) := by
  constructor
  · intro m M hm hM hm0 hM0
    subst hm
    subst hM
    show (if m ≠ 0 ∧ M ≠ 0
      then StatDisplay.value (toFixed1 ((M - m) / M * 100))
      else StatDisplay.dashes) = _
    rw [if_pos ⟨hm0, hM0⟩]
  · intro hcase
    rcases hcase with rfl | rfl | rfl | rfl
    · cases Mp <;> rfl
    · cases Mp with
      | none => rfl
      | some M =>
        show (if (0 : ℚ) ≠ 0 ∧ M ≠ 0
          then StatDisplay.value (toFixed1 ((M - 0) / M * 100))
          else StatDisplay.dashes) = _
        rw [if_neg fun hc => hc.1 rfl]
    · cases mp <;> rfl
    · cases mp with
      | none => rfl
      | some m =>
        show (if m ≠ 0 ∧ (0 : ℚ) ≠ 0
          then StatDisplay.value (toFixed1 ((0 - m) / 0 * 100))
          else StatDisplay.dashes) = _
        rw [if_neg fun hc => hc.2 rfl]

theorem renderStatistics_savings_witness :
    savingsDisplay (some 18) (some 40) =
        StatDisplay.value (toFixed1 ((40 - 18) / 40 * 100)) ∧
      savingsDisplay (some 0) (some 40) = StatDisplay.dashes :=
  ⟨(renderStatistics_savings (some 18) (some 40)).1 18 40 rfl rfl
      (by norm_num) (by norm_num),
    (renderStatistics_savings (some 0) (some 40)).2
      (Or.inr (Or.inl rfl))⟩

/-- C10: a `current_prices` event only rewrites `current_price` and
`timestamp` of already-present entries whose provider id matches an update
(provider id, provider name and total price survive, no entry is added or
removed, unmatched entries are untouched), and an event of any other type
leaves `currentPrices` entirely unchanged. -/
theorem handlePriceUpdate_frame (now : ℤ)
    (currentPrices : List CurrentPriceEntry) (ev : UpdateEvent) :
    (ev.etype ≠ "current_prices" →
      handlePriceUpdate now currentPrices ev = currentPrices) ∧
    (ev.etype = "current_prices" →
      List.Forall₂ (updFrame now ev.providers) currentPrices
        (handlePriceUpdate now currentPrices ev)) := by
  constructor
  · intro hne
    unfold handlePriceUpdate
    rw [if_neg hne]
  · intro heq
    unfold handlePriceUpdate
    rw [if_pos heq]
    exact updFrame_foldl (fun u hu => hu)
      (List.forall₂_same.2 fun x _ => updFrame_refl now ev.providers x)

theorem handlePriceUpdate_frame_witness :
    handlePriceUpdate 100 [⟨1, "aWATTar", 24, none, 0⟩]
        ⟨"alert", [⟨1, 30⟩]⟩ = [⟨1, "aWATTar", 24, none, 0⟩] ∧
      List.Forall₂ (updFrame 100 [⟨1, 30⟩]) [⟨1, "aWATTar", 24, none, 0⟩]
        (handlePriceUpdate 100 [⟨1, "aWATTar", 24, none, 0⟩]
          ⟨"current_prices", [⟨1, 30⟩]⟩) :=
  ⟨(handlePriceUpdate_frame 100 [⟨1, "aWATTar", 24, none, 0⟩]
      ⟨"alert", [⟨1, 30⟩]⟩).1 (by simp),
    (handlePriceUpdate_frame 100 [⟨1, "aWATTar", 24, none, 0⟩]
      ⟨"current_prices", [⟨1, 30⟩]⟩).2 rfl⟩

end DynectricTracker
